import Mathlib

/-!
Shallow embedding of the natural-language task-capture parser
`parseTaskInput` from `src/contexts/TaskContext.tsx` of the GTD-Warrior
repository, together with theorems settling the frozen claims about it.

Strings are modelled as `List Char` (`Str`).  The six JavaScript regular
expressions used by the parser are embedded as executable scanners that
reproduce the exact leftmost-match, alternation-order, greediness and
word-boundary (`\b`) semantics of the source patterns.  JavaScript
`String.prototype.replace` with a string pattern (replace the first
literal occurrence), `trim`, and the `\s+` collapse are embedded
directly.  `Date` is modelled by a clock carrying the current epoch
instant in milliseconds plus a fixed local-time offset; `toISOString`
(which is UTC-based and throws a `RangeError` on an out-of-range time
value) is embedded through the standard civil-from-days calendar
algorithm together with the ECMAScript ±8.64e15 ms time-value bound.
-/

deriving instance DecidableEq for Except

namespace GTDW

/-- Strings of the parser are modelled as lists of characters. -/
abbrev Str := List Char

/-- JavaScript `\w` (without the `u` flag): `[A-Za-z0-9_]`. -/
def isWordChar (c : Char) : Bool :=
  (('A' ≤ c && c ≤ 'Z') || ('a' ≤ c && c ≤ 'z') || ('0' ≤ c && c ≤ '9') || c = '_')

/-- JavaScript `\s` (and the character set removed by `String.prototype.trim`):
ASCII whitespace plus the Unicode space separators, line separators and BOM. -/
def isJsSpace (c : Char) : Bool :=
  c = ' ' || c = '\t' || c = '\n' || c = '\r' ||
  c.toNat = 0x0b || c.toNat = 0x0c || c.toNat = 0xa0 || c.toNat = 0x1680 ||
  (0x2000 ≤ c.toNat && c.toNat ≤ 0x200a) ||
  c.toNat = 0x2028 || c.toNat = 0x2029 || c.toNat = 0x202f ||
  c.toNat = 0x205f || c.toNat = 0x3000 || c.toNat = 0xfeff

/-- ASCII lower-casing of a character (JS `toLowerCase` restricted to the
ASCII range; all characters the parser compares against are ASCII). -/
def lowerChar (c : Char) : Char :=
  if 'A' ≤ c && c ≤ 'Z' then Char.ofNat (c.toNat + 32) else c

/-- ASCII upper-casing of a character (used for the priority letter,
mirroring `priorityMatch[1].toUpperCase()`). -/
def upperChar (c : Char) : Char :=
  if 'a' ≤ c && c ≤ 'z' then Char.ofNat (c.toNat - 32) else c

/-- Lower-case a string, character by character. -/
def lowerStr (s : Str) : Str := s.map lowerChar

/-- Case-insensitive character comparison as performed by a `/i` regex
whose pattern characters are ASCII. -/
def ciEq (a b : Char) : Bool := lowerChar a = lowerChar b

/-- Match a literal pattern case-insensitively at the head of the input.
Returns the consumed original characters and the rest of the input. -/
def matchCi : Str → Str → Option (Str × Str)
  | [], s => some ([], s)
  | _ :: _, [] => none
  | p :: ps, c :: cs =>
    if ciEq p c then
      match matchCi ps cs with
      | some (con, rest) => some (c :: con, rest)
      | none => none
    else none

/-- JS `title.replace(pat, '')` for a string pattern: remove the first
literal occurrence of `pat`; if `pat` does not occur, return the string
unchanged. -/
def replaceFirst (s pat : Str) : Str :=
  match s with
  | [] => []
  | c :: cs => if pat.isPrefixOf (c :: cs) then (c :: cs).drop pat.length
               else c :: replaceFirst cs pat

/-- Does `p` occur as a contiguous substring of `s`? -/
def infixB (p s : Str) : Bool :=
  match s with
  | [] => p.isEmpty
  | c :: cs => p.isPrefixOf (c :: cs) || infixB p cs

/-- Drop leading JS whitespace (the left half of `String.prototype.trim`). -/
def trimLeft (s : Str) : Str := s.dropWhile isJsSpace

/-- Drop trailing JS whitespace (the right half of `String.prototype.trim`). -/
def trimRight : Str → Str
  | [] => []
  | c :: cs =>
    match trimRight cs with
    | [] => if isJsSpace c then [] else [c]
    | r => c :: r

/-- JS `String.prototype.trim`. -/
def trimStr (s : Str) : Str := trimRight (trimLeft s)

/-- `title.replace(/\s+/g, ' ')`: every maximal run of JS whitespace is
replaced by a single space.  The boolean argument records whether the
previous character belonged to a whitespace run still being collapsed. -/
def collapseAux : Bool → Str → Str
  | _, [] => []
  | prevSp, c :: cs =>
    if isJsSpace c then
      if prevSp then collapseAux true cs else ' ' :: collapseAux true cs
    else c :: collapseAux false cs

/-- The final title clean-up of the parser:
`title.replace(/\s+/g, ' ').trim()`. -/
def normalize (s : Str) : Str := trimStr (collapseAux false s)

/-! ### The six regex scanners of `parseTaskInput`

Each scanner reproduces its JS pattern exactly: leftmost match wins, the
alternatives of a group are tried in source order, `\b` tests word/non-word
adjacency, and `\S+` / `\w+` are greedy. -/

/-- Is the previous character (if any) a word character?  Used to decide
`\b`: a boundary holds at a position iff exactly one of the adjacent
characters is a word character (string ends count as non-word). -/
def wordB : Option Char → Bool
  | some c => isWordChar c
  | none => false

/-- `\b` immediately after a word character: the next input character must
be absent or a non-word character. -/
def tailBoundaryOk : Str → Bool
  | [] => true
  | c :: _ => !(isWordChar c)

/-- The captured letter class `[HML]` of the priority pattern, case-insensitively. -/
def isHML (c : Char) : Bool := ciEq c 'H' || ciEq c 'M' || ciEq c 'L'

/-- Attempt the priority pattern `\b(?:pri:|!)([HML])\b` (case-insensitive)
at the current position, given the previous character.  Returns the matched
text and the captured letter.  The `pri:` alternative starts with a word
character, so its `\b` requires a non-word (or absent) previous character;
the `!` alternative starts with a non-word character, so its `\b` requires
a word previous character. -/
def priTryAt (prev : Option Char) (s : Str) : Option (Str × Char) :=
  match matchCi ('p' :: 'r' :: 'i' :: ':' :: []) s with
  | some (con, l :: rest) =>
    if !(wordB prev) && isHML l && tailBoundaryOk rest then some (con ++ [l], l)
    else none
  | _ =>
    match s with
    | '!' :: l :: rest =>
      if wordB prev && isHML l && tailBoundaryOk rest then some (['!', l], l)
      else none
    | _ => none

/-- Scan for the leftmost priority match. -/
def priFindAux : Option Char → Str → Option (Str × Char)
  | _, [] => none
  | prev, c :: cs =>
    match priTryAt prev (c :: cs) with
    | some m => some m
    | none => priFindAux (some c) cs

/-- `title.match(/\b(?:pri:|!)([HML])\b/i)`: matched text and captured letter. -/
def priFind (s : Str) : Option (Str × Char) := priFindAux none s

/-- The context alternatives, in the source order of
`/@(home|work|computer|phone|errands|anywhere)\b/i`. -/
def ctxWords : List Str :=
  ["home".data, "work".data, "computer".data, "phone".data,
   "errands".data, "anywhere".data]

/-- Try the context alternatives in order after a literal `@`; on a prefix
match the trailing `\b` must also hold, otherwise the next alternative is
tried (JS backtracking).  Returns (matched text, captured word). -/
def ctxTryList : List Str → Str → Option (Str × Str)
  | [], _ => none
  | w :: ws, rest =>
    match matchCi w rest with
    | some (con, rest2) =>
      if tailBoundaryOk rest2 then some ('@' :: con, con) else ctxTryList ws rest
    | none => ctxTryList ws rest

/-- Attempt the context pattern at the current position.  Note the pattern
has no `\b` before the `@`, so any position where a literal `@` starts one
of the six words (followed by a boundary) matches. -/
def ctxTryAt : Str → Option (Str × Str)
  | '@' :: rest => ctxTryList ctxWords rest
  | _ => none

/-- `title.match(/@(home|work|computer|phone|errands|anywhere)\b/i)`. -/
def ctxFind : Str → Option (Str × Str)
  | [] => none
  | c :: cs =>
    match ctxTryAt (c :: cs) with
    | some m => some m
    | none => ctxFind cs

/-- Attempt a `\b<key>(\S+)` pattern (`key` = `pro:` or `due:`) at the
current position: boundary before the (word) first key character, the key
case-insensitively, then a greedy non-empty run of non-whitespace.
Returns (matched text, captured value). -/
def keyTryAt (key : Str) (prev : Option Char) (s : Str) : Option (Str × Str) :=
  if wordB prev then none
  else
    match matchCi key s with
    | some (con, rest) =>
      match rest.takeWhile (fun ch => !(isJsSpace ch)) with
      | [] => none
      | v => some (con ++ v, v)
    | none => none

/-- Scan for the leftmost `\b<key>(\S+)` match. -/
def keyFindAux (key : Str) : Option Char → Str → Option (Str × Str)
  | _, [] => none
  | prev, c :: cs =>
    match keyTryAt key prev (c :: cs) with
    | some m => some m
    | none => keyFindAux key (some c) cs

/-- `title.match(/\bpro:(\S+)/i)`. -/
def projFind (s : Str) : Option (Str × Str) := keyFindAux "pro:".data none s

/-- `title.match(/\bdue:(\S+)/i)`. -/
def dueFind (s : Str) : Option (Str × Str) := keyFindAux "due:".data none s

/-- `title.match(/\+(\w+)/g)`: all non-overlapping matches, left to right.
Implemented as a single left-to-right pass; the accumulator holds the
reversed word characters of a match currently being read (after a `+`),
or `none` when outside a candidate match. -/
def tagAux : Option Str → Str → List Str
  | none, [] => []
  | some acc, [] => if acc.isEmpty then [] else [('+' :: acc.reverse)]
  | none, c :: cs => if c = '+' then tagAux (some []) cs else tagAux none cs
  | some acc, c :: cs =>
    if isWordChar c then tagAux (some (c :: acc)) cs
    else if acc.isEmpty then
      if c = '+' then tagAux (some []) cs else tagAux none cs
    else
      ('+' :: acc.reverse) :: (if c = '+' then tagAux (some []) cs else tagAux none cs)

/-- All matched texts of `/\+(\w+)/g` on `s`, in order. -/
def tagFindAll (s : Str) : List Str := tagAux none s

/-- The status alternatives, in the source order of
`/>(next|wait|waiting|someday|maybe)/i`.  Since `wait` precedes `waiting`
and JS tries alternatives left to right, the `waiting` alternative can
never be the one that matches. -/
def statusWords : List Str :=
  ["next".data, "wait".data, "waiting".data, "someday".data, "maybe".data]

/-- Try the status alternatives in order after a literal `>`; there is no
trailing `\b`, so the first alternative that is a (case-insensitive)
prefix wins.  Returns (matched text, captured word). -/
def statusTryList : List Str → Str → Option (Str × Str)
  | [], _ => none
  | w :: ws, rest =>
    match matchCi w rest with
    | some (con, _) => some ('>' :: con, con)
    | none => statusTryList ws rest

/-- `title.match(/>(next|wait|waiting|someday|maybe)/i)`. -/
def statusFind : Str → Option (Str × Str)
  | [] => none
  | '>' :: cs =>
    match statusTryList statusWords cs with
    | some m => some m
    | none => statusFind cs
  | _ :: cs => statusFind cs

/-! ### The `Date` model

`new Date()` is modelled by a `Clock`: the current instant as epoch
milliseconds plus a fixed local-time offset in milliseconds (local time =
UTC + offset).  `toISOString()` is UTC-based; it throws a `RangeError`
when the time value lies outside ±8.64e15 ms.  Under a fixed offset,
`d.setDate(d.getDate() + n)` (which operates on local-time fields) adds
exactly `n * 86400000` ms to the instant. -/

/-- The environment clock behind `new Date()`. -/
structure Clock where
  /-- Current instant, milliseconds since the Unix epoch (UTC). -/
  nowMs : Int
  /-- Fixed offset of local time from UTC, in milliseconds. -/
  offMs : Int
deriving DecidableEq, Repr

/-- Milliseconds per day. -/
def msPerDay : Int := 86400000

/-- ECMAScript time values are valid iff their magnitude is at most
8.64e15 ms; outside this range the `Date` is invalid and `toISOString`
throws a `RangeError`. -/
def validMs (t : Int) : Bool := t.natAbs ≤ 8640000000000000

/-- Proleptic-Gregorian civil date from a count of days since 1970-01-01
(the standard era-based algorithm used by calendar conversions). -/
def civilFromDays (z0 : Int) : Int × Nat × Nat :=
  let z : Int := z0 + 719468
  let era : Int := z.fdiv 146097
  let doe : Nat := (z - era * 146097).toNat
  let yoe : Nat := (doe - doe / 1460 + doe / 36524 - doe / 146096) / 365
  let doy : Nat := doe - (365 * yoe + yoe / 4 - yoe / 100)
  let mp : Nat := (5 * doy + 2) / 153
  let d : Nat := doy - (153 * mp + 2) / 5 + 1
  let m : Nat := if mp < 10 then mp + 3 else mp - 9
  (((yoe : Int) + era * 400) + (if m ≤ 2 then 1 else 0), m, d)

/-- Decimal digit character. -/
def digitChar (n : Nat) : Char := Char.ofNat (48 + n % 10)

/-- Two-digit zero-padded decimal. -/
def pad2 (n : Nat) : Str := [digitChar (n / 10), digitChar n]

/-- Four-digit zero-padded decimal. -/
def pad4 (n : Nat) : Str :=
  [digitChar (n / 1000), digitChar (n / 100), digitChar (n / 10), digitChar n]

/-- Six-digit zero-padded decimal (expanded-year ISO format). -/
def pad6 (n : Nat) : Str :=
  [digitChar (n / 100000), digitChar (n / 10000), digitChar (n / 1000),
   digitChar (n / 100), digitChar (n / 10), digitChar n]

/-- The year field of `toISOString`: four digits for 0..9999, otherwise
the expanded `±YYYYYY` form. -/
def yearStr (y : Int) : Str :=
  if 0 ≤ y && y ≤ 9999 then pad4 y.toNat
  else (if y < 0 then ['-'] else ['+']) ++ pad6 y.natAbs

/-- `d.toISOString().split('T')[0]`: the UTC calendar date of an instant,
formatted `YYYY-MM-DD`. -/
def utcDateStr (ms : Int) : Str :=
  match civilFromDays (ms.fdiv msPerDay) with
  | (y, m, d) => yearStr y ++ '-' :: pad2 m ++ '-' :: pad2 d

/-- The numeric value of a digit string (`parseInt` on `\d+`). -/
def digitsVal (l : Str) : Nat := l.foldl (fun a c => a * 10 + (c.toNat - 48)) 0

/-- `dueValue.match(/^\+\d+d$/)`: on success, the digit run `N` of `+Nd`.
`\d+` is greedy and `d` is not a digit, so the pattern matches exactly
when the value is `+`, then one or more digits, then a final `d`. -/
def plusNdDigits (v : Str) : Option Str :=
  match v with
  | '+' :: rest =>
    let ds := rest.takeWhile Char.isDigit
    if !ds.isEmpty && rest.drop ds.length = ['d'] then some ds else none
  | _ => none

/-- `dueValue.match(/^\d{4}-\d{2}-\d{2}$/)`. -/
def isoForm (v : Str) : Bool :=
  match v with
  | [a, b, c, d, '-', e, f, '-', g, h] =>
    a.isDigit && b.isDigit && c.isDigit && d.isDigit &&
    e.isDigit && f.isDigit && g.isDigit && h.isDigit
  | _ => false

/-- The due-date branch of the parser, applied to the captured `\S+`
value: lower-case it, then resolve `today`, `tomorrow`/`tom`, `+Nd`,
a literal `YYYY-MM-DD`, or nothing.  The branches that read back a
computed `Date` via `toISOString` throw (`.error ()`, a `RangeError`)
when the time value is out of range. -/
def dueDateCalc (vRaw : Str) (c : Clock) : Except Unit (Option Str) :=
  let v := lowerStr vRaw
  if v = "today".data then
    if validMs c.nowMs then .ok (some (utcDateStr c.nowMs)) else .error ()
  else if v = "tomorrow".data || v = "tom".data then
    let t := c.nowMs + msPerDay
    if validMs t then .ok (some (utcDateStr t)) else .error ()
  else
    match plusNdDigits v with
    | some ds =>
      let t := c.nowMs + (digitsVal ds : Int) * msPerDay
      if validMs t then .ok (some (utcDateStr t)) else .error ()
    | none => if isoForm v then .ok (some v) else .ok none

/-- A (lower-cased) due value recognized by one of the four date branches. -/
def recognizedDue (v : Str) : Bool :=
  v = "today".data || v = "tomorrow".data || v = "tom".data ||
  (plusNdDigits v).isSome || isoForm v

/-! ### The parser -/

/-- `type Priority = 'high' | 'medium' | 'low'` from `src/types/task.ts`. -/
inductive Priority where
  | high | medium | low
deriving DecidableEq, Repr

/-- `type TaskStatus = 'inbox' | 'next' | 'waiting' | 'someday' | 'done'`
from `src/types/task.ts`. -/
inductive TaskStatus where
  | inbox | next | waiting | someday | done
deriving DecidableEq, Repr

/-- The `ParsedTask` interface of `src/contexts/TaskContext.tsx`.
The `context` field holds the `'@...'` string of the `Context` union. -/
structure ParsedTask where
  title : Str
  priority : Option Priority := none
  context : Option Str := none
  projectName : Option Str := none
  dueDate : Option Str := none
  tags : List Str := []
  status : Option TaskStatus := none
deriving DecidableEq, Repr

/-- `const p = priorityMatch[1].toUpperCase(); if (p === 'H') ... `. -/
def priVal (l : Char) : Option Priority :=
  let p := upperChar l
  if p = 'H' then some .high
  else if p = 'M' then some .medium
  else if p = 'L' then some .low
  else none

/-- `` context = `@${contextMatch[1].toLowerCase()}` ``. -/
def ctxVal (w : Str) : Str := '@' :: lowerStr w

/-- `const s = statusMatch[1].toLowerCase(); if (s === 'next') ...`. -/
def statusVal (w : Str) : Option TaskStatus :=
  let s := lowerStr w
  if s = "next".data then some .next
  else if s = "wait".data || s = "waiting".data then some .waiting
  else if s = "someday".data || s = "maybe".data then some .someday
  else none

/-- Priority stage: first match of the priority pattern sets the field and
its matched text is removed (first literal occurrence) from the title. -/
def priStage (t : Str) : Option Priority × Str :=
  match priFind t with
  | some (tok, l) => (priVal l, trimStr (replaceFirst t tok))
  | none => (none, t)

/-- Context stage. -/
def ctxStage (t : Str) : Option Str × Str :=
  match ctxFind t with
  | some (tok, w) => (some (ctxVal w), trimStr (replaceFirst t tok))
  | none => (none, t)

/-- Project stage (`projectName = projectMatch[1]`, case preserved). -/
def projStage (t : Str) : Option Str × Str :=
  match projFind t with
  | some (tok, v) => (some v, trimStr (replaceFirst t tok))
  | none => (none, t)

/-- Due-date stage.  The date computation runs before the title is
updated, so a thrown `RangeError` aborts the whole parse. -/
def dueStage (t : Str) (c : Clock) : Except Unit (Option Str × Str) :=
  match dueFind t with
  | some (tok, v) =>
    match dueDateCalc v c with
    | .error e => .error e
    | .ok d => .ok (d, trimStr (replaceFirst t tok))
  | none => .ok (none, t)

/-- The `forEach` body of the tag stage: for each matched text, push the
text without its leading `+` and remove the first literal occurrence of
the text from the title. -/
def tagsLoop : List Str → Str → List Str × Str
  | [], t => ([], t)
  | m :: ms, t =>
    match tagsLoop ms (trimStr (replaceFirst t m)) with
    | (tg, tfin) => (m.drop 1 :: tg, tfin)

/-- Tag stage. -/
def tagsStage (t : Str) : List Str × Str := tagsLoop (tagFindAll t) t

/-- Status stage. -/
def statusStage (t : Str) : Option TaskStatus × Str :=
  match statusFind t with
  | some (tok, w) => (statusVal w, trimStr (replaceFirst t tok))
  | none => (none, t)

/-- The title after the priority stage. -/
def t1 (s : Str) : Str := (priStage s).2

/-- The title after the context stage. -/
def t2 (s : Str) : Str := (ctxStage (t1 s)).2

/-- The title after the project stage. -/
def t3 (s : Str) : Str := (projStage (t2 s)).2

/-- The title after the due-date stage (unchanged if that stage threw). -/
def t4 (s : Str) (c : Clock) : Str :=
  match dueStage (t3 s) c with
  | .ok (_, t) => t
  | .error _ => t3 s

/-- The title after the tag stage. -/
def t5 (s : Str) (c : Clock) : Str := (tagsStage (t4 s c)).2

/-- `parseTaskInput` from `src/contexts/TaskContext.tsx`: the sequential
pipeline priority → context → project → due → tags → status over the
progressively stripped title, followed by whitespace clean-up.  `.error`
models the `RangeError` thrown by `toISOString` on an out-of-range date;
on every other input the function returns `.ok`. -/
def parseTaskInput (s : Str) (c : Clock) : Except Unit ParsedTask :=
  match dueStage (t3 s) c with
  | .error e => .error e
  | .ok (dueDate, td) =>
    match tagsStage td with
    | (tags, tt) =>
      match statusStage tt with
      | (status, ts) =>
        .ok { title := normalize ts
              priority := (priStage s).1
              context := (ctxStage (t1 s)).1
              projectName := (projStage (t2 s)).1
              dueDate := dueDate
              tags := tags
              status := status }

/-- Modelled from the spec: "`today` → current calendar date, as
`YYYY-MM-DD` in local time" — the local calendar date of the current
instant (local time = UTC + offset).  This is the spec-side definition
the code's `dueDate` for `due:today` is compared against in claim C3;
the code itself uses `toISOString`, which is UTC-based. -/
def specLocalDateStr (c : Clock) : Str := utcDateStr (c.nowMs + c.offMs)

/-! ### Normalized titles

`normalize` output is *clean* (its only whitespace is the plain space and
no two whitespace characters are adjacent) and trimmed, which makes
`normalize` idempotent.  These lemmas support the claims about re-parsing
a returned title. -/

/-- A character a collapsed title may contain: whitespace only as `' '`. -/
def okChar (c : Char) : Bool := !(isJsSpace c) || c = ' '

/-- Clean strings: only `' '` as whitespace, never twice in a row. -/
def cleanB : Str → Bool
  | [] => true
  | [c] => okChar c
  | c :: d :: cs => okChar c && !(isJsSpace c && isJsSpace d) && cleanB (d :: cs)

/-- Is the first character (if any) a non-whitespace character? -/
def headNotSpace : Str → Bool
  | [] => true
  | c :: _ => !(isJsSpace c)

/-- No scanner matches anywhere in `s`: the input contains no recognized
token of any kind. -/
def noTok (s : Str) : Prop :=
  priFind s = none ∧ ctxFind s = none ∧ projFind s = none ∧
  dueFind s = none ∧ tagFindAll s = [] ∧ statusFind s = none

instance (s : Str) : Decidable (noTok s) := by
  unfold noTok; infer_instance

theorem cleanB_tail {c : Char} {t : Str} (h : cleanB (c :: t) = true) :
    cleanB t = true := by
  cases t with
  | nil => rfl
  | cons d cs => simp only [cleanB, Bool.and_eq_true] at h; exact h.2

theorem cleanB_ok_head {c : Char} {t : Str} (h : cleanB (c :: t) = true) :
    okChar c = true := by
  cases t with
  | nil => exact h
  | cons d cs => simp only [cleanB, Bool.and_eq_true] at h; exact h.1.1

theorem cleanB_pair {c d : Char} {cs : Str} (h : cleanB (c :: d :: cs) = true) :
    (isJsSpace c && isJsSpace d) = false := by
  simp only [cleanB, Bool.and_eq_true] at h
  have := h.1.2
  rwa [Bool.not_eq_true'] at this

theorem cleanB_cons_nonspace {c : Char} {t : Str} (hc : isJsSpace c = false)
    (ht : cleanB t = true) : cleanB (c :: t) = true := by
  cases t with
  | nil => simp [cleanB, okChar, hc]
  | cons d cs => simp [cleanB, okChar, hc, ht]

theorem cleanB_cons_space {t : Str} (hh : headNotSpace t = true)
    (ht : cleanB t = true) : cleanB (' ' :: t) = true := by
  cases t with
  | nil => decide
  | cons d cs =>
    simp only [headNotSpace, Bool.not_eq_true'] at hh
    simp [cleanB, okChar, hh, ht]

theorem col_head (s : Str) : headNotSpace (collapseAux true s) = true := by
  induction s with
  | nil => rfl
  | cons c cs ih =>
    by_cases hsp : isJsSpace c = true
    · simpa [collapseAux, hsp] using ih
    · simp only [Bool.not_eq_true] at hsp
      simp [collapseAux, hsp, headNotSpace]

theorem col_clean (s : Str) : ∀ b, cleanB (collapseAux b s) = true := by
  induction s with
  | nil => intro b; rfl
  | cons c cs ih =>
    intro b
    by_cases hsp : isJsSpace c = true
    · cases b with
      | true => simpa [collapseAux, hsp] using ih true
      | false =>
        simp only [collapseAux, hsp, if_true, Bool.false_eq_true, if_false]
        exact cleanB_cons_space (col_head cs) (ih true)
    · simp only [Bool.not_eq_true] at hsp
      simp only [collapseAux, hsp, Bool.false_eq_true, if_false]
      exact cleanB_cons_nonspace hsp (ih false)

theorem col_true_of_headNotSpace {t : Str} (h : headNotSpace t = true) :
    collapseAux true t = collapseAux false t := by
  cases t with
  | nil => rfl
  | cons c cs =>
    simp only [headNotSpace, Bool.not_eq_true'] at h
    simp [collapseAux, h]

theorem col_id {t : Str} (h : cleanB t = true) : collapseAux false t = t := by
  induction t with
  | nil => rfl
  | cons c cs ih =>
    by_cases hsp : isJsSpace c = true
    · have hc : c = ' ' := by
        have := cleanB_ok_head h
        simp only [okChar, hsp, Bool.not_true, Bool.false_or] at this
        simpa using this
      subst hc
      have hcs : collapseAux true cs = cs := by
        cases cs with
        | nil => rfl
        | cons d ds =>
          have hd : isJsSpace d = false := by
            have := cleanB_pair h
            simpa [hsp] using this
          rw [col_true_of_headNotSpace (by simp [headNotSpace, hd])]
          exact ih (cleanB_tail h)
      simp [collapseAux, hsp, hcs]
    · simp only [Bool.not_eq_true] at hsp
      simp [collapseAux, hsp, ih (cleanB_tail h)]

theorem cleanB_append_left : ∀ a b : Str, cleanB (a ++ b) = true → cleanB a = true := by
  intro a
  induction a with
  | nil => intro b _; rfl
  | cons x xs ih =>
    intro b h
    cases xs with
    | nil =>
      have := cleanB_ok_head (c := x) (t := b) h
      simpa [cleanB] using this
    | cons y ys =>
      have hx : okChar x = true := cleanB_ok_head (t := (y :: ys) ++ b) h
      have hp : (isJsSpace x && isJsSpace y) = false :=
        cleanB_pair (show cleanB (x :: y :: (ys ++ b)) = true from h)
      have ht : cleanB (y :: ys) = true := ih b (cleanB_tail h)
      simp [cleanB, hx, hp, ht]

theorem cleanB_append_right : ∀ a b : Str, cleanB (a ++ b) = true → cleanB b = true := by
  intro a
  induction a with
  | nil => intro b h; exact h
  | cons x xs ih => intro b h; exact ih b (cleanB_tail h)

theorem cleanB_trimLeft {t : Str} (h : cleanB t = true) :
    cleanB (trimLeft t) = true := by
  have h2 : cleanB (List.takeWhile isJsSpace t ++ List.dropWhile isJsSpace t) = true := by
    rw [List.takeWhile_append_dropWhile]; exact h
  exact cleanB_append_right _ _ h2

theorem trimLeft_head (t : Str) : headNotSpace (trimLeft t) = true := by
  induction t with
  | nil => rfl
  | cons c cs ih =>
    by_cases hsp : isJsSpace c = true
    · simpa [trimLeft, List.dropWhile, hsp] using ih
    · simp only [Bool.not_eq_true] at hsp
      simp [trimLeft, List.dropWhile, hsp, headNotSpace]

theorem trimLeft_of_headNotSpace {t : Str} (h : headNotSpace t = true) :
    trimLeft t = t := by
  cases t with
  | nil => rfl
  | cons c cs =>
    simp only [headNotSpace, Bool.not_eq_true'] at h
    simp [trimLeft, List.dropWhile, h]

theorem trimRight_cons {c : Char} {cs : Str} :
    trimRight (c :: cs) =
      match trimRight cs with
      | [] => if isJsSpace c then [] else [c]
      | r => c :: r := rfl

theorem trimRight_front : ∀ t : Str, trimRight t <+: t := by
  intro t
  induction t with
  | nil => exact List.prefix_refl _
  | cons c cs ih =>
    cases h : trimRight cs with
    | nil =>
      simp only [trimRight, h]
      by_cases hsp : isJsSpace c = true
      · simp [hsp]
      · simp only [Bool.not_eq_true] at hsp
        simp [hsp]
    | cons d ds =>
      simp only [trimRight, h]
      exact (List.prefix_cons_inj c).mpr (h ▸ ih)

theorem cleanB_front {s t : Str} (h : cleanB t = true) (hp : s <+: t) :
    cleanB s = true := by
  obtain ⟨u, rfl⟩ := hp
  exact cleanB_append_left _ _ h

theorem headNotSpace_front {s t : Str} (h : headNotSpace t = true)
    (hp : s <+: t) : headNotSpace s = true := by
  cases s with
  | nil => rfl
  | cons c cs =>
    obtain ⟨u, rfl⟩ := hp
    exact h

theorem trimRight_idem : ∀ t : Str, trimRight (trimRight t) = trimRight t := by
  intro t
  induction t with
  | nil => rfl
  | cons c cs ih =>
    cases h : trimRight cs with
    | nil =>
      by_cases hsp : isJsSpace c = true
      · simp [trimRight, h, hsp]
      · simp only [Bool.not_eq_true] at hsp
        simp [trimRight, h, hsp]
    | cons d ds =>
      have hdd : trimRight (d :: ds) = d :: ds := by rw [← h, ih]
      have h1 : trimRight (c :: cs) = c :: d :: ds := by
        rw [trimRight_cons, h]
      rw [h1, trimRight_cons, hdd]

theorem trimStr_idem (t : Str) : trimStr (trimStr t) = trimStr t := by
  unfold trimStr
  rw [trimLeft_of_headNotSpace
        (headNotSpace_front (trimLeft_head t) (trimRight_front _)),
      trimRight_idem]

theorem cleanB_trimStr {t : Str} (h : cleanB t = true) :
    cleanB (trimStr t) = true :=
  cleanB_front (cleanB_trimLeft h) (trimRight_front _)

theorem normalize_idem (s : Str) : normalize (normalize s) = normalize s := by
  unfold normalize
  rw [col_id (cleanB_trimStr (col_clean s false)), trimStr_idem]

/-! ### Shape lemmas for the scanners and stages -/

theorem priTryAt_isHML {prev : Option Char} {s tok : Str} {l : Char}
    (h : priTryAt prev s = some (tok, l)) : isHML l = true := by
  unfold priTryAt at h
  split at h
  · split at h
    · rename_i hcond
      simp only [Bool.and_eq_true] at hcond
      cases h
      exact hcond.1.2
    · exact absurd h (by simp)
  · split at h
    · split at h
      · rename_i hcond
        simp only [Bool.and_eq_true] at hcond
        cases h
        exact hcond.1.2
      · exact absurd h (by simp)
    · exact absurd h (by simp)

theorem priFindAux_isHML : ∀ (prev : Option Char) (s tok : Str) (l : Char),
    priFindAux prev s = some (tok, l) → isHML l = true := by
  intro prev s
  induction s generalizing prev with
  | nil => intro tok l h; exact absurd h (by simp [priFindAux])
  | cons c cs ih =>
    intro tok l h
    unfold priFindAux at h
    split at h
    · rename_i m hm
      cases h
      exact priTryAt_isHML hm
    · exact ih (some c) tok l h

theorem priFind_isHML {s tok : Str} {l : Char} (h : priFind s = some (tok, l)) :
    isHML l = true :=
  priFindAux_isHML none s tok l h

/-- Every text matched by the tag scanner is a `+` followed by a
non-empty run of word characters. -/
theorem tagAux_shape : ∀ (s : Str) (acc : Option Str),
    (∀ w, acc = some w → w.all isWordChar = true) →
    ∀ m ∈ tagAux acc s,
      ∃ w, m = '+' :: w ∧ w ≠ [] ∧ w.all isWordChar = true := by
  intro s
  induction s with
  | nil =>
    intro acc hacc m hm
    match acc, hm with
    | none, hm => exact absurd hm (by simp [tagAux])
    | some w, hm =>
      unfold tagAux at hm
      split at hm
      · exact absurd hm (by simp)
      · rename_i hw
        simp only [List.mem_singleton] at hm
        subst hm
        refine ⟨w.reverse, rfl, ?_, ?_⟩
        · simpa [List.isEmpty_iff] using hw
        · have := hacc w rfl
          simpa [List.all_reverse] using this
  | cons c cs ih =>
    intro acc hacc m hm
    match acc with
    | none =>
      unfold tagAux at hm
      split at hm
      · exact ih (some []) (by intro w hw; cases hw; rfl) m hm
      · exact ih none (by intro w hw; cases hw) m hm
    | some w =>
      unfold tagAux at hm
      split at hm
      · rename_i hword
        refine ih (some (c :: w)) ?_ m hm
        intro w' hw'
        cases hw'
        have := hacc w rfl
        simp [List.all_cons, hword, this]
      · split at hm
        · split at hm
          · exact ih (some []) (by intro w' hw'; cases hw'; rfl) m hm
          · exact ih none (by intro w' hw'; cases hw') m hm
        · rename_i hword hw
          simp only [List.mem_cons] at hm
          cases hm with
          | inl hm =>
            subst hm
            refine ⟨w.reverse, rfl, ?_, ?_⟩
            · simpa [List.isEmpty_iff] using hw
            · have := hacc w rfl
              simpa [List.all_reverse] using this
          | inr hm =>
            split at hm
            · exact ih (some []) (by intro w' hw'; cases hw'; rfl) m hm
            · exact ih none (by intro w' hw'; cases hw') m hm

theorem tagFindAll_shape {s : Str} {m : Str} (hm : m ∈ tagFindAll s) :
    ∃ w, m = '+' :: w ∧ w ≠ [] ∧ w.all isWordChar = true :=
  tagAux_shape s none (by intro w hw; cases hw) m hm

/-- The tag list produced by the `forEach` loop is exactly the matched
texts with their leading `+` removed, in order. -/
theorem tagsLoop_fst : ∀ (ms : List Str) (t : Str),
    (tagsLoop ms t).1 = ms.map (fun m => m.drop 1) := by
  intro ms
  induction ms with
  | nil => intro t; rfl
  | cons m ms ih =>
    intro t
    simp only [tagsLoop, List.map_cons]
    rw [ih]

/-- A non-throwing due stage determines the whole parse result. -/
theorem parse_eq_ok {s : Str} {c : Clock} {d : Option Str} {td : Str}
    (hd : dueStage (t3 s) c = .ok (d, td)) :
    parseTaskInput s c = Except.ok
      { title := normalize ((statusStage ((tagsStage td).2)).2)
        priority := (priStage s).1
        context := (ctxStage (t1 s)).1
        projectName := (projStage (t2 s)).1
        dueDate := d
        tags := (tagsStage td).1
        status := (statusStage ((tagsStage td).2)).1 } := by
  unfold parseTaskInput
  rw [hd]

/-- Unfolding of a successful parse: every output field in terms of the
stage pipeline. -/
theorem parse_ok_elim {s : Str} {c : Clock} {r : ParsedTask}
    (h : parseTaskInput s c = .ok r) :
    dueStage (t3 s) c = .ok (r.dueDate, t4 s c) ∧
    r.title = normalize ((statusStage (t5 s c)).2) ∧
    r.priority = (priStage s).1 ∧
    r.context = (ctxStage (t1 s)).1 ∧
    r.projectName = (projStage (t2 s)).1 ∧
    r.tags = (tagsStage (t4 s c)).1 ∧
    r.status = (statusStage (t5 s c)).1 := by
  unfold parseTaskInput at h
  cases hd : dueStage (t3 s) c with
  | error e => rw [hd] at h; exact absurd h (by simp)
  | ok p =>
    obtain ⟨d, td⟩ := p
    have ht4 : t4 s c = td := by simp [t4, hd]
    rw [hd] at h
    simp only at h
    cases h
    refine ⟨?_, ?_, rfl, rfl, rfl, ?_, ?_⟩ <;> simp [ht4, t5]

/-- On an input without any recognized token the parser only normalizes
whitespace. -/
theorem parse_of_noTok {t : Str} (h : noTok t) (c : Clock) :
    parseTaskInput t c = .ok ⟨normalize t, none, none, none, none, [], none⟩ := by
  obtain ⟨h1, h2, h3, h4, h5, h6⟩ := h
  have e1 : priStage t = (none, t) := by simp [priStage, h1]
  have et1 : t1 t = t := by simp [t1, e1]
  have e2 : ctxStage t = (none, t) := by simp [ctxStage, h2]
  have et2 : t2 t = t := by simp [t2, et1, e2]
  have e3 : projStage t = (none, t) := by simp [projStage, h3]
  have et3 : t3 t = t := by simp [t3, et2, e3]
  have e4 : dueStage t c = .ok (none, t) := by simp [dueStage, h4]
  have e5 : tagsStage t = ([], t) := by simp [tagsStage, h5, tagsLoop]
  have e6 : statusStage t = (none, t) := by simp [statusStage, h6]
  simp [parseTaskInput, et3, e4, e5, e6, e1, et1, e2, et2, e3]

/-! ### Claims -/

/-- C6: for every input containing no recognized token of any kind,
`parseTaskInput` returns the whitespace-normalized input as title
(runs of whitespace collapsed to one space, ends trimmed) with priority,
context, projectName, dueDate and status absent and tags empty. -/
theorem claim_C6 {s : Str} (c : Clock) (h : noTok s) :
    parseTaskInput s c = .ok ⟨normalize s, none, none, none, none, [], none⟩ :=
  parse_of_noTok h c

theorem claim_C6_witness :
    noTok "hello   world".data ∧
    parseTaskInput "hello   world".data ⟨0, 0⟩ =
      .ok ⟨"hello world".data, none, none, none, none, [], none⟩ :=
  ⟨by decide, claim_C6 ⟨0, 0⟩ (by decide)⟩

/-- C10: the context pattern has no left word boundary, so a context
literal embedded inside a larger non-whitespace run is extracted and
deleted from the middle of that run: parsing `"mail bob@work.com"`
yields context `"@work"` and title `"mail bob.com"`. -/
theorem claim_C10 (c : Clock) :
    parseTaskInput "mail bob@work.com".data c =
      .ok ⟨"mail bob.com".data, none, some "@work".data, none, none, [], none⟩ :=
  rfl

/-- C1 as stated is false: in `"task !H !M"` each `!` is preceded by a
space, the `\b` before the `!` alternative therefore fails, and the
parser extracts no priority at all (the claim demands priority high). -/
theorem claim_C1_counterexample :
    parseTaskInput "task !H !M".data ⟨0, 0⟩ =
      .ok ⟨"task !H !M".data, none, none, none, none, [], none⟩ ∧
    (none : Option Priority) ≠ some Priority.high := by
  refine ⟨by decide, by decide⟩

/-- C1 (amended): whenever the priority pattern
`\b(?:pri:|!)([HML])\b` (case-insensitive) has a first match — which for
the `!` alternative requires the `!` to be immediately preceded by a word
character — the parser maps the captured letter through
H→high, M→medium, L→low, and the priority stage removes the first literal
occurrence of the matched token text from the working title.  A
space-preceded `!H` is not matched at all. -/
theorem claim_C1 {s : Str} {c : Clock} {tok : Str} {l : Char} {r : ParsedTask}
    (hm : priFind s = some (tok, l))
    (hr : parseTaskInput s c = .ok r) :
    r.priority = priVal l ∧ isHML l = true ∧
    t1 s = trimStr (replaceFirst s tok) ∧
    priVal 'H' = some .high ∧ priVal 'h' = some .high ∧
    priVal 'M' = some .medium ∧ priVal 'm' = some .medium ∧
    priVal 'L' = some .low ∧ priVal 'l' = some .low := by
  obtain ⟨-, -, hpri, -, -, -, -⟩ := parse_ok_elim hr
  refine ⟨?_, priFind_isHML hm, ?_, by decide, by decide, by decide,
          by decide, by decide, by decide⟩
  · rw [hpri]; simp [priStage, hm]
  · simp [t1, priStage, hm]

theorem claim_C1_witness :
    priFind "task pri:h".data = some ("pri:h".data, 'h') ∧
    parseTaskInput "task pri:h".data ⟨0, 0⟩ =
      .ok ⟨"task".data, some .high, none, none, none, [], none⟩ ∧
    ((⟨"task".data, some .high, none, none, none, [], none⟩ : ParsedTask).priority
        = priVal 'h' ∧ isHML 'h' = true ∧
      t1 "task pri:h".data = trimStr (replaceFirst "task pri:h".data "pri:h".data) ∧
      priVal 'H' = some .high ∧ priVal 'h' = some .high ∧
      priVal 'M' = some .medium ∧ priVal 'm' = some .medium ∧
      priVal 'L' = some .low ∧ priVal 'l' = some .low) :=
  ⟨by decide, by decide,
   claim_C1 (s := "task pri:h".data) (c := ⟨0, 0⟩)
     (r := ⟨"task".data, some .high, none, none, none, [], none⟩)
     (by decide) (by decide)⟩

/-- C2 as stated is false: for `"task >waiting"` the alternation
`(next|wait|waiting|someday|maybe)` tries `wait` before `waiting`, and a
JS alternation takes the first alternative that matches, so only `>wait`
is matched and removed; the trailing `ing` of the raw token `>waiting`
remains in the returned title. -/
theorem claim_C2_counterexample :
    parseTaskInput "task >waiting".data ⟨0, 0⟩ =
      .ok ⟨"task ing".data, none, none, none, none, [], some .waiting⟩ ∧
    infixB "ing".data "task ing".data = true ∧
    "task ing".data ≠ "task".data :=
  ⟨by decide, by decide, by decide⟩

/-- C2 (amended): the first status match maps its captured word through
next→next, wait→waiting, someday→someday, maybe→someday, and the status
stage removes the first literal occurrence of the matched text from the
title — but for `>waiting` the match is only the `>wait` prefix, so the
trailing `ing` is left behind. -/
theorem claim_C2 {s : Str} {c : Clock} {tok w : Str} {r : ParsedTask}
    (hm : statusFind (t5 s c) = some (tok, w))
    (hr : parseTaskInput s c = .ok r) :
    r.status = statusVal w ∧
    r.title = normalize (trimStr (replaceFirst (t5 s c) tok)) ∧
    statusVal "next".data = some .next ∧
    statusVal "wait".data = some .waiting ∧
    statusVal "waiting".data = some .waiting ∧
    statusVal "someday".data = some .someday ∧
    statusVal "maybe".data = some .someday ∧
    statusFind ">waiting".data = some (">wait".data, "wait".data) := by
  obtain ⟨-, htitle, -, -, -, -, hst⟩ := parse_ok_elim hr
  refine ⟨?_, ?_, by decide, by decide, by decide, by decide, by decide, by decide⟩
  · rw [hst]; simp [statusStage, hm]
  · rw [htitle]; simp [statusStage, hm]

theorem claim_C2_witness :
    statusFind (t5 "call bob >wait".data ⟨0, 0⟩) =
      some (">wait".data, "wait".data) ∧
    parseTaskInput "call bob >wait".data ⟨0, 0⟩ =
      .ok ⟨"call bob".data, none, none, none, none, [], some .waiting⟩ ∧
    ((⟨"call bob".data, none, none, none, none, [], some .waiting⟩ : ParsedTask).status
        = statusVal "wait".data ∧
      (⟨"call bob".data, none, none, none, none, [], some .waiting⟩ : ParsedTask).title
        = normalize (trimStr (replaceFirst (t5 "call bob >wait".data ⟨0, 0⟩) ">wait".data)) ∧
      statusVal "next".data = some .next ∧
      statusVal "wait".data = some .waiting ∧
      statusVal "waiting".data = some .waiting ∧
      statusVal "someday".data = some .someday ∧
      statusVal "maybe".data = some .someday ∧
      statusFind ">waiting".data = some (">wait".data, "wait".data)) :=
  ⟨by decide, by decide,
   claim_C2 (s := "call bob >wait".data) (c := ⟨0, 0⟩)
     (r := ⟨"call bob".data, none, none, none, none, [], some .waiting⟩)
     (by decide) (by decide)⟩

/-- C3 as stated is false: `due:today` is resolved with
`toISOString`, which formats the *UTC* calendar date, not the local one.
At instant 1970-01-01T20:00Z with a fixed +10 h local offset the local
calendar date is 1970-01-02 but the parser returns 1970-01-01. -/
theorem claim_C3_counterexample :
    parseTaskInput "buy milk due:today".data ⟨72000000, 36000000⟩ =
      .ok ⟨"buy milk".data, none, none, none, some "1970-01-01".data, [], none⟩ ∧
    specLocalDateStr ⟨72000000, 36000000⟩ = "1970-01-02".data ∧
    "1970-01-01".data ≠ specLocalDateStr ⟨72000000, 36000000⟩ :=
  ⟨by decide, by decide, by decide⟩

/-- C3 (amended): when the first due token's value is `today`
(case-insensitively) and the current instant is a valid time value, the
parser sets `dueDate` to the current *UTC* calendar date (the date part
of `toISOString`), formatted `YYYY-MM-DD`. -/
theorem claim_C3 {s : Str} {c : Clock} (tok v : Str)
    (hm : dueFind (t3 s) = some (tok, v))
    (hv : lowerStr v = "today".data)
    (hc : validMs c.nowMs = true) :
    ∃ r, parseTaskInput s c = .ok r ∧ r.dueDate = some (utcDateStr c.nowMs) := by
  have hcalc : dueDateCalc v c = .ok (some (utcDateStr c.nowMs)) := by
    simp [dueDateCalc, hv, hc]
  have hdue : dueStage (t3 s) c =
      .ok (some (utcDateStr c.nowMs), trimStr (replaceFirst (t3 s) tok)) := by
    simp [dueStage, hm, hcalc]
  unfold parseTaskInput
  rw [hdue]
  exact ⟨_, rfl, rfl⟩

theorem claim_C3_witness :
    dueFind (t3 "buy milk due:today".data) =
      some ("due:today".data, "today".data) ∧
    lowerStr "today".data = "today".data ∧
    validMs (72000000 : Int) = true ∧
    (∃ r, parseTaskInput "buy milk due:today".data ⟨72000000, 36000000⟩ = .ok r ∧
      r.dueDate = some (utcDateStr (72000000 : Int))) :=
  ⟨by decide, by decide, by decide,
   claim_C3 (s := "buy milk due:today".data) (c := ⟨72000000, 36000000⟩)
     "due:today".data "today".data
     (by decide) (by decide) (by decide)⟩

/-- C4 as stated is false: in `"task due:+3d due:+5d"` only the first
`due:+3d` is honored, but the second `due:+5d` is *not* left as literal
text — the later tag stage matches its `+5d` part, turns it into the tag
`5d`, and strips it, leaving only `due:` in the title. -/
theorem claim_C4_counterexample :
    parseTaskInput "task due:+3d due:+5d".data ⟨0, 0⟩ =
      .ok ⟨"task due:".data, none, none, none, some "1970-01-04".data,
           ["5d".data], none⟩ ∧
    infixB "due:+5d".data "task due:".data = false :=
  ⟨by decide, by decide⟩

/-- C4 (amended): every single-valued field is computed from the *first*
match of its pattern in the working title at its stage — later
occurrences of the same kind are never parsed into the field — but a
later occurrence is not always left verbatim: a later stage may consume
part of it (e.g. the `+5d` of a second `due:+5d` token becomes a tag). -/
theorem claim_C4 {s : Str} {c : Clock} {r : ParsedTask}
    (hr : parseTaskInput s c = .ok r) :
    r.priority = (match priFind s with
                  | some (_, l) => priVal l
                  | none => none) ∧
    r.context = (match ctxFind (t1 s) with
                 | some (_, w) => some (ctxVal w)
                 | none => none) ∧
    r.projectName = (match projFind (t2 s) with
                     | some (_, v) => some v
                     | none => none) ∧
    r.dueDate = (match dueFind (t3 s) with
                 | some (_, v) =>
                   (match dueDateCalc v c with
                    | .ok d => d
                    | .error _ => none)
                 | none => none) ∧
    r.status = (match statusFind (t5 s c) with
                | some (_, w) => statusVal w
                | none => none) := by
  obtain ⟨hdue, -, hpri, hctx, hproj, -, hst⟩ := parse_ok_elim hr
  refine ⟨?_, ?_, ?_, ?_, ?_⟩
  · rw [hpri]
    cases h : priFind s with
    | none => simp [priStage, h]
    | some m => obtain ⟨tok, l⟩ := m; simp [priStage, h]
  · rw [hctx]
    cases h : ctxFind (t1 s) with
    | none => simp [ctxStage, h]
    | some m => obtain ⟨tok, w⟩ := m; simp [ctxStage, h]
  · rw [hproj]
    cases h : projFind (t2 s) with
    | none => simp [projStage, h]
    | some m => obtain ⟨tok, v⟩ := m; simp [projStage, h]
  · unfold dueStage at hdue
    cases h : dueFind (t3 s) with
    | none =>
      rw [h] at hdue
      replace hdue : Except.ok (none, t3 s) =
          Except.ok (r.dueDate, t4 s c) := hdue
      simp only [Except.ok.injEq, Prod.mk.injEq] at hdue
      show r.dueDate = none
      exact hdue.1.symm
    | some m =>
      obtain ⟨tok, v⟩ := m
      rw [h] at hdue
      replace hdue :
          (match dueDateCalc v c with
           | Except.error e => Except.error e
           | Except.ok d => Except.ok (d, trimStr (replaceFirst (t3 s) tok))) =
            Except.ok (r.dueDate, t4 s c) := hdue
      show r.dueDate = (match dueDateCalc v c with
           | Except.ok d => d
           | Except.error _ => none)
      cases hc2 : dueDateCalc v c with
      | error e =>
        rw [hc2] at hdue
        exact absurd hdue (by simp)
      | ok d =>
        rw [hc2] at hdue
        simp only [Except.ok.injEq, Prod.mk.injEq] at hdue
        exact hdue.1.symm
  · rw [hst]
    cases h : statusFind (t5 s c) with
    | none => simp [statusStage, h]
    | some m => obtain ⟨tok, w⟩ := m; simp [statusStage, h]

theorem claim_C4_witness :
    parseTaskInput "go pri:L @home pro:p due:2030-01-02 +t >next".data ⟨0, 0⟩ =
      .ok ⟨"go".data, some .low, some "@home".data, some "p".data,
           some "2030-01-02".data, ["t".data], some .next⟩ ∧
    ((⟨"go".data, some .low, some "@home".data, some "p".data,
        some "2030-01-02".data, ["t".data], some .next⟩ : ParsedTask).priority =
      (match priFind "go pri:L @home pro:p due:2030-01-02 +t >next".data with
       | some (_, l) => priVal l
       | none => none) ∧
     (⟨"go".data, some .low, some "@home".data, some "p".data,
        some "2030-01-02".data, ["t".data], some .next⟩ : ParsedTask).context =
      (match ctxFind (t1 "go pri:L @home pro:p due:2030-01-02 +t >next".data) with
       | some (_, w) => some (ctxVal w)
       | none => none) ∧
     (⟨"go".data, some .low, some "@home".data, some "p".data,
        some "2030-01-02".data, ["t".data], some .next⟩ : ParsedTask).projectName =
      (match projFind (t2 "go pri:L @home pro:p due:2030-01-02 +t >next".data) with
       | some (_, v) => some v
       | none => none) ∧
     (⟨"go".data, some .low, some "@home".data, some "p".data,
        some "2030-01-02".data, ["t".data], some .next⟩ : ParsedTask).dueDate =
      (match dueFind (t3 "go pri:L @home pro:p due:2030-01-02 +t >next".data) with
       | some (_, v) =>
         (match dueDateCalc v ⟨0, 0⟩ with
          | .ok d => d
          | .error _ => none)
       | none => none) ∧
     (⟨"go".data, some .low, some "@home".data, some "p".data,
        some "2030-01-02".data, ["t".data], some .next⟩ : ParsedTask).status =
      (match statusFind (t5 "go pri:L @home pro:p due:2030-01-02 +t >next".data ⟨0, 0⟩) with
       | some (_, w) => statusVal w
       | none => none)) :=
  ⟨by decide,
   claim_C4 (s := "go pri:L @home pro:p due:2030-01-02 +t >next".data) (c := ⟨0, 0⟩)
     (r := ⟨"go".data, some .low, some "@home".data, some "p".data,
            some "2030-01-02".data, ["t".data], some .next⟩)
     (by decide)⟩

/-- C5 as stated is false: `parseTaskInput` is not total.  For
`due:+Nd` with an `N` that pushes the date past the ±8.64e15 ms
ECMAScript time-value range, `toISOString` throws a `RangeError`:
`parse("x due:+200000000d")` at the epoch throws. -/
theorem claim_C5_counterexample :
    parseTaskInput "x due:+200000000d".data ⟨0, 0⟩ = .error () := by decide

/-- C5 (amended): the parser throws exactly when the first due token of
the working title at the due stage resolves through a date computation
(`today`, `tomorrow`/`tom`, `+Nd`) whose resulting time value is out of
the representable range; on every other input it returns a result. -/
theorem claim_C5 (s : Str) (c : Clock) :
    parseTaskInput s c = .error () ↔
      ∃ tok v, dueFind (t3 s) = some (tok, v) ∧ dueDateCalc v c = .error () := by
  constructor
  · intro h
    cases hd : dueStage (t3 s) c with
    | error e =>
      unfold dueStage at hd
      cases hm : dueFind (t3 s) with
      | none => rw [hm] at hd; exact absurd hd (by simp)
      | some m =>
        obtain ⟨tok, v⟩ := m
        rw [hm] at hd
        replace hd :
            (match dueDateCalc v c with
             | Except.error e2 => Except.error e2
             | Except.ok d => Except.ok (d, trimStr (replaceFirst (t3 s) tok))) =
              Except.error e := hd
        cases hc2 : dueDateCalc v c with
        | error e2 => cases e2; exact ⟨tok, v, rfl, hc2⟩
        | ok d => rw [hc2] at hd; exact absurd hd (by simp)
    | ok p =>
      obtain ⟨d, td⟩ := p
      rw [parse_eq_ok hd] at h
      exact absurd h (by simp)
  · rintro ⟨tok, v, hm, hc2⟩
    have hd : dueStage (t3 s) c = .error () := by
      simp [dueStage, hm, hc2]
    unfold parseTaskInput
    rw [hd]

theorem claim_C5_witness :
    (parseTaskInput "x due:+200000001d".data ⟨0, 0⟩ = .error () ↔
      ∃ tok v, dueFind (t3 "x due:+200000001d".data) = some (tok, v) ∧
        dueDateCalc v ⟨0, 0⟩ = .error ()) ∧
    parseTaskInput "task due:tom".data ⟨0, 0⟩ =
      .ok ⟨"task".data, none, none, none, some "1970-01-02".data, [], none⟩ :=
  ⟨claim_C5 "x due:+200000001d".data ⟨0, 0⟩, by decide⟩

/-- C7 as stated is false: parsing is not idempotent on the title.  A
second token of the same single-valued kind survives the first parse as
literal title text and is extracted by the second parse:
`"task pro:a pro:b"` parses to title `"task pro:b"`, and re-parsing that
title yields title `"task"` with `projectName` reappearing as `"b"`. -/
theorem claim_C7_counterexample :
    parseTaskInput "task pro:a pro:b".data ⟨0, 0⟩ =
      .ok ⟨"task pro:b".data, none, none, some "a".data, none, [], none⟩ ∧
    parseTaskInput "task pro:b".data ⟨0, 0⟩ =
      .ok ⟨"task".data, none, none, some "b".data, none, [], none⟩ ∧
    "task".data ≠ "task pro:b".data ∧
    some "b".data ≠ (none : Option Str) :=
  ⟨by decide, by decide, by decide, by decide⟩

/-- C7 (amended): re-parsing the returned title is the identity whenever
that title contains no recognized token (which the original claim's
rationale — "all tokens were already stripped" — presupposed): the title
is returned unchanged and no field or tag is produced. -/
theorem claim_C7 {s : Str} {c : Clock} {r : ParsedTask}
    (hr : parseTaskInput s c = .ok r) (h : noTok r.title) (c' : Clock) :
    parseTaskInput r.title c' =
      .ok ⟨r.title, none, none, none, none, [], none⟩ := by
  obtain ⟨-, htitle, -⟩ := parse_ok_elim hr
  rw [parse_of_noTok h c', htitle, normalize_idem]

theorem claim_C7_witness :
    parseTaskInput "write report pro:alpha".data ⟨0, 0⟩ =
      .ok ⟨"write report".data, none, none, some "alpha".data, none, [], none⟩ ∧
    noTok ("write report".data) ∧
    parseTaskInput "write report".data ⟨0, 0⟩ =
      .ok ⟨"write report".data, none, none, none, none, [], none⟩ :=
  ⟨by decide, by decide,
   claim_C7 (s := "write report pro:alpha".data) (c := ⟨0, 0⟩)
     (r := ⟨"write report".data, none, none, some "alpha".data, none, [], none⟩)
     (by decide) (by decide) ⟨0, 0⟩⟩

/-- C8 as stated is false: not every occurrence of `+<word>` in the
*input* becomes a tag.  In `"a due:+5d"` the due stage consumes the
whole `due:+5d` token first, so the `+5d` occurrence yields no tag at
all (`tags` is empty). -/
theorem claim_C8_counterexample :
    parseTaskInput "a due:+5d".data ⟨0, 0⟩ =
      .ok ⟨"a".data, none, none, none, some "1970-01-06".data, [], none⟩ ∧
    infixB "+5d".data "a due:+5d".data = true :=
  ⟨by decide, by decide⟩

/-- C8 (amended): the tag stage collects *all* `+word` matches of the
title as it stands after the due stage — each match becomes exactly one
tag, the matched text minus its leading `+` (a non-empty word-character
run), in left-to-right order with no limit — and the stage's title is
the fold that removes the first literal occurrence of each matched text. -/
theorem claim_C8 {s : Str} {c : Clock} {r : ParsedTask}
    (hr : parseTaskInput s c = .ok r) :
    r.tags = (tagFindAll (t4 s c)).map (fun m => m.drop 1) ∧
    (∀ m ∈ tagFindAll (t4 s c),
      ∃ w, m = '+' :: w ∧ w ≠ [] ∧ w.all isWordChar = true) ∧
    t5 s c = (tagsLoop (tagFindAll (t4 s c)) (t4 s c)).2 := by
  obtain ⟨-, -, -, -, -, htags, -⟩ := parse_ok_elim hr
  refine ⟨?_, fun m hm => tagFindAll_shape hm, rfl⟩
  rw [htags]
  simp [tagsStage, tagsLoop_fst]

theorem claim_C8_witness :
    parseTaskInput "email boss pro:acme +urgent +followup >wait".data ⟨0, 0⟩ =
      .ok ⟨"email boss".data, none, none, some "acme".data, none,
           ["urgent".data, "followup".data], some .waiting⟩ ∧
    ((⟨"email boss".data, none, none, some "acme".data, none,
        ["urgent".data, "followup".data], some .waiting⟩ : ParsedTask).tags =
      (tagFindAll (t4 "email boss pro:acme +urgent +followup >wait".data ⟨0, 0⟩)).map
        (fun m => m.drop 1) ∧
     (∀ m ∈ tagFindAll (t4 "email boss pro:acme +urgent +followup >wait".data ⟨0, 0⟩),
       ∃ w, m = '+' :: w ∧ w ≠ [] ∧ w.all isWordChar = true) ∧
     t5 "email boss pro:acme +urgent +followup >wait".data ⟨0, 0⟩ =
       (tagsLoop (tagFindAll (t4 "email boss pro:acme +urgent +followup >wait".data ⟨0, 0⟩))
         (t4 "email boss pro:acme +urgent +followup >wait".data ⟨0, 0⟩)).2) :=
  ⟨by decide,
   claim_C8 (s := "email boss pro:acme +urgent +followup >wait".data) (c := ⟨0, 0⟩)
     (r := ⟨"email boss".data, none, none, some "acme".data, none,
            ["urgent".data, "followup".data], some .waiting⟩)
     (by decide)⟩

/-- C9 as stated is false: an earlier stage can rewrite the due value
before the due stage runs.  In `"due:tom!H"` the input's first due token
is `due:tom!H` with the unrecognized value `tom!H`, but the priority
stage first strips `!H`, leaving `due:tom`, so the parser sets `dueDate`
to tomorrow's date instead of leaving it absent. -/
theorem claim_C9_counterexample :
    dueFind "due:tom!H".data = some ("due:tom!H".data, "tom!H".data) ∧
    recognizedDue (lowerStr "tom!H".data) = false ∧
    parseTaskInput "due:tom!H".data ⟨0, 0⟩ =
      .ok ⟨[], some .high, none, none, some "1970-01-02".data, [], none⟩ ∧
    some "1970-01-02".data ≠ (none : Option Str) :=
  ⟨by decide, by decide, by decide, by decide⟩

/-- C9 (amended): when the title reaching the due stage has a first
`due:<value>` token whose value matches none of
today/tomorrow/tom/+Nd/YYYY-MM-DD, the whole token is stripped from the
working title at that stage while `dueDate` stays absent. -/
theorem claim_C9 {s : Str} {c : Clock} (tok v : Str)
    (hm : dueFind (t3 s) = some (tok, v))
    (hur : recognizedDue (lowerStr v) = false) :
    ∃ r, parseTaskInput s c = .ok r ∧ r.dueDate = none ∧
      t4 s c = trimStr (replaceFirst (t3 s) tok) := by
  simp only [recognizedDue, Bool.or_eq_false_iff, decide_eq_false_iff_not] at hur
  have h1 := hur.1.1.1.1
  have h2 := hur.1.1.1.2
  have h3 := hur.1.1.2
  have h4 := hur.1.2
  have h5 := hur.2
  have hpd : plusNdDigits (lowerStr v) = none := by
    cases hpd : plusNdDigits (lowerStr v) with
    | none => rfl
    | some ds => rw [hpd] at h4; exact absurd h4 (by simp)
  have hcalc : dueDateCalc v c = .ok none := by
    simp [dueDateCalc, h1, h2, h3, hpd, h5]
  have hdue : dueStage (t3 s) c = .ok (none, trimStr (replaceFirst (t3 s) tok)) := by
    simp [dueStage, hm, hcalc]
  refine ⟨_, parse_eq_ok hdue, rfl, ?_⟩
  simp [t4, hdue]

theorem claim_C9_witness :
    dueFind (t3 "task due:nextweek".data) =
      some ("due:nextweek".data, "nextweek".data) ∧
    recognizedDue (lowerStr "nextweek".data) = false ∧
    (∃ r, parseTaskInput "task due:nextweek".data ⟨0, 0⟩ = .ok r ∧
      r.dueDate = none ∧
      t4 "task due:nextweek".data ⟨0, 0⟩ =
        trimStr (replaceFirst (t3 "task due:nextweek".data) "due:nextweek".data)) ∧
    parseTaskInput "task due:nextweek".data ⟨0, 0⟩ =
      .ok ⟨"task".data, none, none, none, none, [], none⟩ :=
  ⟨by decide, by decide,
   claim_C9 (s := "task due:nextweek".data) (c := ⟨0, 0⟩)
     "due:nextweek".data "nextweek".data
     (by decide) (by decide),
   by decide⟩

end GTDW
